import Mathlib

/-!
Verification of the ANaConDA/Atomer integration tool
(`integration_with_atomer`): a shallow embedding in Lean 4 of
`src/ConfigCreator.py` and `AnacondaConfFromAtomerResult.py`, together with
proofs about the embedded definitions.

Python strings are modelled as lists of characters (`PyStr`), the
filesystem as a flat association list from paths (segment lists) to nodes
(files with content, or directories).
-/

/-- Python strings are sequences of code points; we model them as `List Char`. -/
abbrev PyStr := List Char

/-- Convert a Lean string literal to the `PyStr` model. -/
def pstr (s : String) : PyStr := s.data

/-- The single-quote character used by the extraction pattern. -/
def sqc : Char := '\''

/-- The newline character. -/
def nl : Char := '\n'

/-- Strict lexicographic code-point order on `PyStr`, as Python compares
strings (`<`). -/
def lexLt : PyStr → PyStr → Bool
  | [], [] => false
  | [], _ :: _ => true
  | _ :: _, [] => false
  | a :: as, b :: bs =>
    if a.toNat < b.toNat then true
    else if b.toNat < a.toNat then false
    else lexLt as bs

/-- Python `<=` on strings: `s <= t` iff not `t < s`. -/
def pyLe (s t : PyStr) : Bool := !(lexLt t s)

/-- `pyLe` as a decidable relation, for use with `List.insertionSort`. -/
def pyLeP (s t : PyStr) : Prop := pyLe s t = true

instance : DecidableRel pyLeP := fun s t => inferInstanceAs (Decidable (_ = true))

theorem lexLt_irrefl (a : PyStr) : lexLt a a = false := by
  induction a with
  | nil => rfl
  | cons c cs ih => simp [lexLt, ih]

theorem charEqOfToNat {x y : Char} (h : x.toNat = y.toNat) : x = y :=
  Char.eq_of_val_eq (UInt32.ext h)

theorem lexLt_trans {a b c : PyStr} (h1 : lexLt a b = true) (h2 : lexLt b c = true) :
    lexLt a c = true := by
  induction a generalizing b c with
  | nil =>
    cases b with
    | nil => simp [lexLt] at h1
    | cons y ys =>
      cases c with
      | nil => simp [lexLt] at h2
      | cons z zs => simp [lexLt]
  | cons x xs ih =>
    cases b with
    | nil => simp [lexLt] at h1
    | cons y ys =>
      cases c with
      | nil => simp [lexLt] at h2
      | cons z zs =>
        rw [lexLt] at h1 h2 ⊢
        split_ifs at h1 h2 ⊢ <;>
          first
          | rfl
          | omega
          | exact ih h1 h2
          | exact absurd h1 (by simp)
          | exact absurd h2 (by simp)

theorem lexLt_connex {a b : PyStr} (h1 : lexLt a b = false) (h2 : lexLt b a = false) :
    a = b := by
  induction a generalizing b with
  | nil =>
    cases b with
    | nil => rfl
    | cons y ys => simp [lexLt] at h1
  | cons x xs ih =>
    cases b with
    | nil => simp [lexLt] at h2
    | cons y ys =>
      rw [lexLt] at h1 h2
      by_cases hxy : x.toNat < y.toNat
      · rw [if_pos hxy] at h1
        exact absurd h1 (by simp)
      · by_cases hyx : y.toNat < x.toNat
        · rw [if_pos hyx] at h2
          exact absurd h2 (by simp)
        · rw [if_neg hxy, if_neg hyx] at h1
          rw [if_neg hyx, if_neg hxy] at h2
          have hx : x = y := charEqOfToNat (by omega)
          rw [hx, ih h1 h2]

instance : IsTotal PyStr pyLeP := by
  constructor
  intro a b
  simp only [pyLeP, pyLe, Bool.not_eq_true']
  cases hba : lexLt b a with
  | false => exact Or.inl rfl
  | true =>
    cases hab : lexLt a b with
    | false => exact Or.inr rfl
    | true =>
      have h := lexLt_trans hab hba
      rw [lexLt_irrefl] at h
      exact absurd h (by simp)

instance : IsTrans PyStr pyLeP := by
  constructor
  intro a b c hab hbc
  simp only [pyLeP, pyLe, Bool.not_eq_true'] at hab hbc ⊢
  cases hca : lexLt c a with
  | false => rfl
  | true =>
    cases hbc2 : lexLt b c with
    | true =>
      have h := lexLt_trans hbc2 hca
      rw [hab] at h
      exact absurd h (by simp)
    | false =>
      have hbeq : b = c := lexLt_connex hbc2 hbc
      rw [hbeq, hca] at hab
      exact absurd hab (by simp)

/-!
### The extraction pattern

`extract_functions_to_analyze` uses `re.search(r"originated in function: '([^']+)'", qualifier)`.
We model `re.search` of this fixed pattern directly: try a match at every
position from the left, where a match at a position consists of the literal
text `originated in function: ` followed by a single quote, then one or more
non-quote characters (the capture), then a closing single quote.
-/

/-- The literal part of the pattern up to and including the opening quote. -/
def litPat : PyStr := pstr "originated in function: " ++ [sqc]

/-- Strip an expected literal from the front of a string; `some rest` on success. -/
def stripL : PyStr → PyStr → Option PyStr
  | [], cs => some cs
  | _ :: _, [] => none
  | p :: ps, c :: cs => if c = p then stripL ps cs else none

/-- Collect the characters strictly before the first single quote;
`none` when no single quote occurs at all. -/
def scanName : PyStr → Option PyStr
  | [] => none
  | c :: cs => if c = sqc then some [] else (scanName cs).map (fun n => c :: n)

/-- Attempt the pattern match anchored at the start of `cs`: the literal
prefix, then a nonempty run of non-quote characters, then a closing quote
(`([^']+)` is greedy but cannot cross a quote, so the capture is exactly
the run up to the first quote and must be nonempty). -/
def matchAt (cs : PyStr) : Option PyStr :=
  (stripL litPat cs).bind fun rest =>
    (scanName rest).bind fun n => if n = [] then none else some n

/-- `re.search`: the match at the leftmost position where one exists. -/
def reSearch : PyStr → Option PyStr
  | [] => none
  | c :: cs =>
    match matchAt (c :: cs) with
    | some n => some n
    | none => reSearch cs

/-- Declarative reading of the pattern: `n` is captured at position `i` of `s`. -/
def capturesAt (s n : PyStr) (i : Nat) : Prop :=
  n ≠ [] ∧ sqc ∉ n ∧ ∃ rest, s.drop i = litPat ++ (n ++ sqc :: rest)

/-- `n` is the capture of the leftmost pattern occurrence in `s`. -/
def leftmostCapture (s n : PyStr) : Prop :=
  ∃ i, capturesAt s n i ∧ ∀ j, j < i → ∀ m, ¬ capturesAt s m j

theorem stripL_eq_some {p cs r : PyStr} : stripL p cs = some r ↔ cs = p ++ r := by
  induction p generalizing cs with
  | nil => simp [stripL]
  | cons x ps ih =>
    cases cs with
    | nil => simp [stripL]
    | cons c cs' =>
      by_cases h : c = x
      · subst h
        simp [stripL, ih]
      · simp [stripL, h]

theorem scanName_eq_some {cs n : PyStr} :
    scanName cs = some n ↔ sqc ∉ n ∧ ∃ rest, cs = n ++ sqc :: rest := by
  induction cs generalizing n with
  | nil =>
    simp [scanName]
  | cons c cs' ih =>
    by_cases h : c = sqc
    · subst h
      simp only [scanName, if_pos rfl]
      constructor
      · rintro h2
        cases h2
        exact ⟨by simp, cs', by simp⟩
      · rintro ⟨hn, rest, hr⟩
        cases n with
        | nil => rfl
        | cons a n' =>
          simp at hr
          exact absurd (hr.1 ▸ List.mem_cons_self a n') (hr.1 ▸ hn)
    · simp only [scanName, if_neg h]
      constructor
      · rintro h2
        rcases Option.map_eq_some'.mp h2 with ⟨m, hm, hn⟩
        rcases ih.mp hm with ⟨hmem, rest, hr⟩
        subst hn
        refine ⟨by simp [hmem, Ne.symm h], rest, by simp [hr]⟩
      · rintro ⟨hn, rest, hr⟩
        cases n with
        | nil =>
          simp at hr
          exact absurd hr.1 h
        | cons a n' =>
          simp at hr
          obtain ⟨ha, hr'⟩ := hr
          subst ha
          have h2 := ih.mpr ⟨fun hmem => hn (List.mem_cons_of_mem _ hmem), rest, hr'⟩
          simp [h2]

theorem litPat_ne_nil : litPat ≠ [] := by decide

theorem matchAt_eq_some {cs n : PyStr} : matchAt cs = some n ↔ capturesAt cs n 0 := by
  constructor
  · intro h
    unfold matchAt at h
    cases hs : stripL litPat cs with
    | none => rw [hs] at h; exact absurd h (by simp)
    | some rest =>
      rw [hs] at h
      simp only [Option.some_bind] at h
      cases hn : scanName rest with
      | none => rw [hn] at h; exact absurd h (by simp)
      | some m =>
        rw [hn] at h
        simp only [Option.some_bind] at h
        by_cases hm : m = []
        · rw [if_pos hm] at h
          exact absurd h (by simp)
        · rw [if_neg hm] at h
          have hnm : n = m := by cases h; rfl
          rcases scanName_eq_some.mp hn with ⟨hmem, r, hr⟩
          refine ⟨hnm ▸ hm, hnm ▸ hmem, r, ?_⟩
          simp [stripL_eq_some.mp hs, hr, hnm]
  · rintro ⟨hne, hmem, rest, hcs⟩
    rw [List.drop_zero] at hcs
    have hs : stripL litPat cs = some (n ++ sqc :: rest) := stripL_eq_some.mpr hcs
    have hn : scanName (n ++ sqc :: rest) = some n := scanName_eq_some.mpr ⟨hmem, rest, rfl⟩
    unfold matchAt
    rw [hs]
    simp [hn, hne]

theorem quoteSplit_unique {n m r1 r2 : PyStr} (hn : sqc ∉ n) (hm : sqc ∉ m)
    (h : n ++ sqc :: r1 = m ++ sqc :: r2) : n = m := by
  induction n generalizing m with
  | nil =>
    cases m with
    | nil => rfl
    | cons b m' =>
      simp at h
      exact absurd (h.1 ▸ List.mem_cons_self b m') (h.1 ▸ hm)
  | cons a n' ih =>
    cases m with
    | nil =>
      simp at h
      exact absurd (h.1 ▸ List.mem_cons_self a n') (h.1 ▸ hn)
    | cons b m' =>
      simp at h
      obtain ⟨hab, h'⟩ := h
      subst hab
      rw [ih (fun hx => hn (List.mem_cons_of_mem _ hx)) (fun hx => hm (List.mem_cons_of_mem _ hx)) h']

theorem capturesAt_unique {s n m : PyStr} {i : Nat}
    (h1 : capturesAt s n i) (h2 : capturesAt s m i) : n = m := by
  rcases h1 with ⟨hn1, hmem1, r1, hd1⟩
  rcases h2 with ⟨hn2, hmem2, r2, hd2⟩
  rw [hd1] at hd2
  have h := List.append_cancel_left hd2
  exact quoteSplit_unique hmem1 hmem2 h

theorem capturesAt_nil {n : PyStr} {i : Nat} : ¬ capturesAt [] n i := by
  rintro ⟨hne, hmem, rest, h⟩
  rw [List.drop_nil] at h
  exact litPat_ne_nil (List.append_eq_nil.mp h.symm).1

theorem capturesAt_cons_succ {c : Char} {cs n : PyStr} {i : Nat} :
    capturesAt (c :: cs) n (i + 1) ↔ capturesAt cs n i := by
  simp [capturesAt]

theorem reSearch_eq_some {s n : PyStr} : reSearch s = some n ↔ leftmostCapture s n := by
  induction s generalizing n with
  | nil =>
    simp only [reSearch]
    constructor
    · intro h; exact absurd h (by simp)
    · rintro ⟨i, hcap, _⟩
      exact absurd hcap capturesAt_nil
  | cons c cs ih =>
    cases hm : matchAt (c :: cs) with
    | some m =>
      have hcap0 : capturesAt (c :: cs) m 0 := matchAt_eq_some.mp hm
      constructor
      · intro h
        rw [reSearch, hm] at h
        have hnm : n = m := by cases h; rfl
        exact ⟨0, hnm ▸ hcap0, by omega⟩
      · rintro ⟨i, hcap, hmin⟩
        rw [reSearch, hm]
        cases i with
        | zero => rw [capturesAt_unique hcap hcap0]
        | succ i' => exact absurd hcap0 (hmin 0 (Nat.succ_pos i') m)
    | none =>
      have h0 : ∀ m, ¬ capturesAt (c :: cs) m 0 := by
        intro m hc
        rw [matchAt_eq_some.mpr hc] at hm
        exact absurd hm (by simp)
      rw [reSearch, hm]
      rw [ih]
      constructor
      · rintro ⟨i, hcap, hmin⟩
        refine ⟨i + 1, capturesAt_cons_succ.mpr hcap, ?_⟩
        intro j hj m
        cases j with
        | zero => exact h0 m
        | succ j' => exact hmin j' (by omega) m
      · rintro ⟨i, hcap, hmin⟩
        cases i with
        | zero => exact absurd hcap (h0 n)
        | succ i' =>
          refine ⟨i', capturesAt_cons_succ.mp hcap, ?_⟩
          intro j hj m
          exact hmin (j + 1) (by omega) m

/-!
### Records and `extract_functions_to_analyze`

A decoded JSON record is modelled as an association list of string fields
(`entry.get("qualifier", "")` reads the field with a default).  A Python
`set` of strings is modelled as a duplicate-free list built by
insert-if-absent; only membership and the sorted view are ever consumed.
-/

/-- A decoded report record: a mapping from field names to string values. -/
abbrev Record := List (PyStr × PyStr)

/-- Python `entry.get(key, default)`. -/
def pyGet (entry : Record) (key default : PyStr) : PyStr :=
  match entry.find? (fun kv => kv.1 = key) with
  | some kv => kv.2
  | none => default

/-- `entry.get("qualifier", "")` as used by the extractor. -/
def qualifierOf (entry : Record) : PyStr := pyGet entry (pstr "qualifier") []

/-- Python `set.add`: insert the element unless already present. -/
def setAdd (s : List PyStr) (x : PyStr) : List PyStr :=
  if x ∈ s then s else s ++ [x]

/-- `ConfigCreator.extract_functions_to_analyze`: for each entry, search its
`qualifier` field (default empty string) for the pattern and add the captured
group to the set. -/
def extract_functions_to_analyze (jsonContent : List Record) : List PyStr :=
  jsonContent.foldl
    (fun functions entry =>
      match reSearch (qualifierOf entry) with
      | some functionName => setAdd functions functionName
      | none => functions)
    []

theorem mem_setAdd {s : List PyStr} {x y : PyStr} :
    y ∈ setAdd s x ↔ y ∈ s ∨ y = x := by
  unfold setAdd
  by_cases h : x ∈ s
  · rw [if_pos h]
    constructor
    · exact Or.inl
    · rintro (hy | hy)
      · exact hy
      · exact hy ▸ h
  · rw [if_neg h]
    simp

theorem nodup_setAdd {s : List PyStr} {x : PyStr} (h : s.Nodup) :
    (setAdd s x).Nodup := by
  unfold setAdd
  by_cases hx : x ∈ s
  · rwa [if_pos hx]
  · rw [if_neg hx]
    exact List.Nodup.append h (List.nodup_singleton x)
      (fun a ha hb => hx ((List.mem_singleton.mp hb) ▸ ha))

theorem mem_extractFold (report : List Record) (acc : List PyStr) (n : PyStr) :
    n ∈ report.foldl
      (fun functions entry =>
        match reSearch (qualifierOf entry) with
        | some functionName => setAdd functions functionName
        | none => functions) acc
    ↔ n ∈ acc ∨ ∃ e ∈ report, reSearch (qualifierOf e) = some n := by
  induction report generalizing acc with
  | nil => simp
  | cons e rest ih =>
    rw [List.foldl_cons, ih]
    cases hs : reSearch (qualifierOf e) with
    | none =>
      simp only [List.mem_cons]
      constructor
      · rintro (h | ⟨e', he', hn⟩)
        · exact Or.inl h
        · exact Or.inr ⟨e', Or.inr he', hn⟩
      · rintro (h | ⟨e', he' | he', hn⟩)
        · exact Or.inl h
        · rw [he'] at hn
          rw [hs] at hn
          exact absurd hn (by simp)
        · exact Or.inr ⟨e', he', hn⟩
    | some m =>
      simp only [List.mem_cons, mem_setAdd]
      constructor
      · rintro ((h | h) | ⟨e', he', hn⟩)
        · exact Or.inl h
        · exact Or.inr ⟨e, Or.inl rfl, h ▸ hs⟩
        · exact Or.inr ⟨e', Or.inr he', hn⟩
      · rintro (h | ⟨e', he' | he', hn⟩)
        · exact Or.inl (Or.inl h)
        · rw [he', hs] at hn
          have : n = m := by cases hn; rfl
          exact Or.inl (Or.inr this)
        · exact Or.inr ⟨e', he', hn⟩

theorem nodup_extractFold (report : List Record) (acc : List PyStr) (h : acc.Nodup) :
    (report.foldl
      (fun functions entry =>
        match reSearch (qualifierOf entry) with
        | some functionName => setAdd functions functionName
        | none => functions) acc).Nodup := by
  induction report generalizing acc with
  | nil => simpa
  | cons e rest ih =>
    rw [List.foldl_cons]
    cases hs : reSearch (qualifierOf e) with
    | none => exact ih acc h
    | some m => exact ih _ (nodup_setAdd h)

theorem mem_extract {report : List Record} {n : PyStr} :
    n ∈ extract_functions_to_analyze report
    ↔ ∃ e ∈ report, reSearch (qualifierOf e) = some n := by
  rw [extract_functions_to_analyze, mem_extractFold]
  simp

theorem nodup_extract (report : List Record) :
    (extract_functions_to_analyze report).Nodup :=
  nodup_extractFold report [] List.nodup_nil

/-!
### Filesystem model

The filesystem is a flat association list from paths (lists of name
segments) to nodes.  A node is a regular file with its content or a
directory.  `shutil.rmtree`, `shutil.copytree`, `os.makedirs`,
`os.listdir`, `os.path.isdir` and append-mode `open` are modelled on this
representation.  Exceptions are modelled with an error code; the orchestration
functions return the filesystem reached so far together with an optional
error, mirroring how a raised exception leaves earlier effects in place.
-/

/-- A filesystem path, as a list of name segments. -/
abbrev FPath := List PyStr

/-- A filesystem node: a regular file with content, or a directory. -/
inductive Node where
  | file (content : PyStr)
  | dir
deriving DecidableEq

/-- The filesystem: a flat association list from paths to nodes. -/
abbrev Fs := List (FPath × Node)

/-- Python exceptions relevant to this program. -/
inductive Err where
  | valueError
  | typeError
  | attributeError
  | fileNotFound
  | fileExists
  | argError
deriving DecidableEq

/-- Look up the node stored at a path. -/
def lookupFs (fs : Fs) (p : FPath) : Option Node :=
  (fs.find? (fun e => decide (e.1 = p))).map (fun e => e.2)

/-- `p` equals `root` or lies inside the subtree rooted at `root`. -/
def isUnderPath (p root : FPath) : Bool := decide (p.take root.length = root)

/-- `shutil.rmtree`: remove the path and everything below it. -/
def rmtree (fs : Fs) (p : FPath) : Fs := fs.filter (fun e => !(isUnderPath e.1 p))

/-- The entries making up the subtree rooted at `p`. -/
def entriesUnder (fs : Fs) (p : FPath) : Fs := fs.filter (fun e => isUnderPath e.1 p)

/-- Re-root one entry of a copied subtree from `src` to `dst`. -/
def rerootEntry (src dst : FPath) (e : FPath × Node) : FPath × Node :=
  (dst ++ e.1.drop src.length, e.2)

/-- `shutil.copytree src dst`: fails when `src` is missing or `dst` exists,
otherwise duplicates the whole subtree of `src` at `dst`. -/
def copytree (fs : Fs) (src dst : FPath) : Except Err Fs :=
  if (lookupFs fs src).isNone then .error .fileNotFound
  else if (lookupFs fs dst).isSome then .error .fileExists
  else .ok (fs ++ (entriesUnder fs src).map (rerootEntry src dst))

/-- All nonempty prefixes of `q`, shortest first (the directories
`os.makedirs q` has to create, outermost first). -/
def ancestorsOf (q : FPath) : List FPath :=
  (List.range q.length).map (fun i => q.take (i + 1))

/-- Create each listed directory unless it already exists. -/
def mkdirsList (fs : Fs) : List FPath → Fs
  | [] => fs
  | a :: rest => mkdirsList (if (lookupFs fs a).isSome then fs else fs ++ [(a, Node.dir)]) rest

/-- `os.makedirs q (exist_ok := True)`. -/
def mkdirs (fs : Fs) (q : FPath) : Fs := mkdirsList fs (ancestorsOf q)

/-- Appending text to a node: extends a file's content, leaves a directory
unchanged (writing to a directory cannot happen in the modelled runs). -/
def appendNode (s : PyStr) : Node → Node
  | Node.file c => Node.file (c ++ s)
  | Node.dir => Node.dir

/-- Append `s` to the file at `p`, creating the file when absent
(the semantics of writing to a file opened with mode `"a"`). -/
def appendFile (fs : Fs) (p : FPath) (s : PyStr) : Fs :=
  if (lookupFs fs p).isSome then
    fs.map (fun e => if e.1 = p then (e.1, appendNode s e.2) else e)
  else fs ++ [(p, Node.file s)]

/-- One `f.write(func + "\n")` per function, in order, on the open file. -/
def writeLines (fs : Fs) (p : FPath) (l : List PyStr) : Fs :=
  l.foldl (fun acc n => appendFile acc p (n ++ [nl])) fs

/-- The fixed relative location `filters/functions/include`. -/
def relInclude : FPath := [pstr "filters", pstr "functions", pstr "include"]

/-- `ConfigCreator.update_functions_include`: build the include path, ensure
its parent directories exist, open the file in append mode (which creates it
when missing) and write the functions sorted, one per line.  Python iterates
a `set` in unspecified order, but `sorted` determines the written sequence
uniquely, so the model sorts the set's underlying duplicate-free list. -/
def update_functions_include (fs : Fs) (functionsToInclude : List PyStr)
    (pathToConfig : FPath) : Fs :=
  let includePath := pathToConfig ++ relInclude
  let fs1 := mkdirs fs includePath.dropLast
  let fs2 := appendFile fs1 includePath []
  writeLines fs2 includePath (List.insertionSort pyLeP functionsToInclude)

/-- `ConfigCreator.create_base_result_config`: delete the destination when it
already exists, then copy the base configuration tree there. -/
def create_base_result_config (fs : Fs) (src dst : FPath) : Except Err Fs :=
  copytree (if (lookupFs fs dst).isSome then rmtree fs dst else fs) src dst

/-- `ConfigCreator.read_json_from_file`: read and decode the file; every
failure (missing file, malformed JSON, anything else) is caught, logged and
turned into `None`.  JSON decoding itself is the Python standard library, a
parameter `jsonLoad` here: `none` models a `json.JSONDecodeError`. -/
def read_json_from_file (fs : Fs) (filename : FPath)
    (jsonLoad : PyStr → Option (List Record)) : Option (List Record) :=
  match lookupFs fs filename with
  | some (Node.file content) => jsonLoad content
  | _ => none

/-- `os.path.isdir`. -/
def isDirFs (fs : Fs) (p : FPath) : Bool := decide (lookupFs fs p = some Node.dir)

/-- `os.listdir`: names of the immediate children of `p`, in listing order. -/
def listdirFs (fs : Fs) (p : FPath) : List PyStr :=
  fs.filterMap (fun e =>
    if e.1.length = p.length + 1 ∧ e.1.take p.length = p then e.1.getLast? else none)

/-- Python `str.endswith`. -/
def strEndsWith (s suf : PyStr) : Bool :=
  decide (suf.length ≤ s.length) && decide (s.drop (s.length - suf.length) = suf)

/-- `ConfigCreator.get_atomer_output_files`: `ValueError` when the input path
is not a directory, otherwise the full paths of the `.json` entries. -/
def get_atomer_output_files (fs : Fs) (atomerDir : FPath) : Except Err (List FPath) :=
  if isDirFs fs atomerDir then
    .ok (((listdirFs fs atomerDir).filter
          (fun f => strEndsWith f (pstr ".json"))).map (fun f => atomerDir ++ [f]))
  else .error .valueError

/-- `os.path.splitext(...)[0]`: drop the extension after the last dot,
ignoring any leading dots of the name. -/
def dropLastExt (s : PyStr) : PyStr :=
  let lead := s.takeWhile (fun c => decide (c = '.'))
  let rest := s.dropWhile (fun c => decide (c = '.'))
  if '.' ∈ rest then
    lead ++ ((rest.reverse.dropWhile (fun c => decide (¬ c = '.'))).tail).reverse
  else lead ++ rest

/-- The loop body of `ConfigCreator.create_confs` for one report file:
materialize the base config at `<result_config_dir>/<name>_conf`, decode the
report, extract the function names, write the include filter.  When
`read_json_from_file` returns `None`, `extract_functions_to_analyze`
iterates over `None` and a `TypeError` is raised. -/
def processReportFile (fs : Fs) (baseConfigDir resultConfigDir : FPath)
    (jsonLoad : PyStr → Option (List Record)) (filepath : FPath) : Fs × Option Err :=
  let filename := dropLastExt (filepath.getLastD [])
  let confName := filename ++ pstr "_conf"
  match create_base_result_config fs baseConfigDir (resultConfigDir ++ [confName]) with
  | .error e => (fs, some e)
  | .ok fs1 =>
    match read_json_from_file fs1 filepath jsonLoad with
    | none => (fs1, some Err.typeError)
    | some jsonContent =>
      (update_functions_include fs1 (extract_functions_to_analyze jsonContent)
        (resultConfigDir ++ [confName]), none)

/-- `ConfigCreator.create_confs`: process the report files in order; an
uncaught exception stops the loop, leaving earlier effects in place. -/
def create_confs (fs : Fs) (baseConfigDir resultConfigDir : FPath)
    (jsonLoad : PyStr → Option (List Record)) : List FPath → Fs × Option Err
  | [] => (fs, none)
  | f :: rest =>
    match processReportFile fs baseConfigDir resultConfigDir jsonLoad f with
    | (fs1, some e) => (fs1, some e)
    | (fs1, none) => create_confs fs1 baseConfigDir resultConfigDir jsonLoad rest

/-- `ConfigCreator.run`: discover the report files, then create the configs. -/
def run (fs : Fs) (atomerDir baseConfigDir resultConfigDir : FPath)
    (jsonLoad : PyStr → Option (List Record)) : Fs × Option Err :=
  match get_atomer_output_files fs atomerDir with
  | .error e => (fs, some e)
  | .ok files => create_confs fs baseConfigDir resultConfigDir jsonLoad files

/-- The attribute names defined on class `ConfigCreator`. -/
def configCreatorMethods : List PyStr :=
  [pstr "__init__", pstr "run", pstr "create_confs", pstr "update_functions_include",
   pstr "create_base_result_config", pstr "extract_functions_to_analyze",
   pstr "read_json_from_file", pstr "get_atomer_output_files"]

/-- `AnacondaConfFromAtomerResult.main`: parse arguments, then evaluate
`ConfigCreator(args).Run()`.  Python resolves the attribute `Run` on the
instance dynamically (attribute lookup is case sensitive); when the lookup
fails an `AttributeError` is raised, and only when it succeeds is the found
method invoked. -/
def mainProgram (fs : Fs) (atomerDir baseConfigDir resultConfigDir : FPath)
    (jsonLoad : PyStr → Option (List Record)) (argsParsed : Bool) : Fs × Option Err :=
  if argsParsed then
    match configCreatorMethods.find? (fun m => decide (m = pstr "Run")) with
    | some _ => run fs atomerDir baseConfigDir resultConfigDir jsonLoad
    | none => (fs, some Err.attributeError)
  else (fs, some Err.argError)

/-! ### Association-list filesystem lemmas -/

theorem lookupFs_nil (p : FPath) : lookupFs [] p = none := rfl

theorem lookupFs_cons_self {q : FPath} {n : Node} {fs : Fs} :
    lookupFs ((q, n) :: fs) q = some n := by
  unfold lookupFs
  rw [List.find?_cons_of_pos _ (by simp)]
  rfl

theorem lookupFs_cons_ne {q : FPath} {n : Node} {fs : Fs} {p : FPath} (h : q ≠ p) :
    lookupFs ((q, n) :: fs) p = lookupFs fs p := by
  unfold lookupFs
  rw [List.find?_cons_of_neg _ (by simp [h])]

theorem lookupFs_append (fs ext : Fs) (p : FPath) :
    lookupFs (fs ++ ext) p = (lookupFs fs p).or (lookupFs ext p) := by
  unfold lookupFs
  rw [List.find?_append]
  cases List.find? (fun e => decide (e.1 = p)) fs <;> simp

theorem lookupFs_eq_none_of_ne {l : Fs} {p : FPath} (h : ∀ e ∈ l, e.1 ≠ p) :
    lookupFs l p = none := by
  induction l with
  | nil => rfl
  | cons e rest ih =>
    obtain ⟨q, n⟩ := e
    rw [lookupFs_cons_ne (h _ (List.mem_cons_self _ _))]
    exact ih (fun e he => h e (List.mem_cons_of_mem _ he))

theorem isUnderPath_iff {p root : FPath} : isUnderPath p root = true ↔ ∃ t, p = root ++ t := by
  unfold isUnderPath
  rw [decide_eq_true_eq]
  constructor
  · intro h
    refine ⟨p.drop root.length, ?_⟩
    conv_lhs => rw [← List.take_append_drop root.length p]
    rw [h]
  · rintro ⟨t, rfl⟩
    exact List.take_left ..

theorem isUnderPath_refl (p : FPath) : isUnderPath p p = true :=
  isUnderPath_iff.mpr ⟨[], by simp⟩

theorem isUnderPath_appendRight (root t : FPath) : isUnderPath (root ++ t) root = true :=
  isUnderPath_iff.mpr ⟨t, rfl⟩

theorem under_under_of_le {p a b : FPath} (ha : isUnderPath p a = true)
    (hb : isUnderPath p b = true) (h : a.length ≤ b.length) : isUnderPath b a = true := by
  unfold isUnderPath at *
  rw [decide_eq_true_eq] at *
  rw [← hb, List.take_take, Nat.min_eq_left h, ha]

theorem not_under_trans {e src dst : FPath} (he : isUnderPath e src = true)
    (h1 : isUnderPath src dst = false) (h2 : isUnderPath dst src = false) :
    isUnderPath e dst = false := by
  cases hd : isUnderPath e dst with
  | false => rfl
  | true =>
    rcases Nat.le_total src.length dst.length with hl | hl
    · rw [under_under_of_le he hd hl] at h2
      exact absurd h2 (by simp)
    · rw [under_under_of_le hd he hl] at h1
      exact absurd h1 (by simp)

theorem lookupFs_none_of_all_not_under {fs : Fs} {dst p : FPath}
    (h : ∀ e ∈ fs, isUnderPath e.1 dst = false) (hp : isUnderPath p dst = true) :
    lookupFs fs p = none := by
  refine lookupFs_eq_none_of_ne (fun e he heq => ?_)
  rw [← heq] at hp
  rw [h e he] at hp
  exact absurd hp (by simp)

theorem lookupFs_rmtree_under {fs : Fs} {dst p : FPath} (hp : isUnderPath p dst = true) :
    lookupFs (rmtree fs dst) p = none := by
  refine lookupFs_eq_none_of_ne (fun e he heq => ?_)
  have hmem := List.mem_filter.mp he
  rw [heq, hp] at hmem
  simpa using hmem.2

theorem lookupFs_rmtree_not_under {fs : Fs} {dst p : FPath} (hp : isUnderPath p dst = false) :
    lookupFs (rmtree fs dst) p = lookupFs fs p := by
  simp only [rmtree]
  induction fs with
  | nil => rfl
  | cons e rest ih =>
    obtain ⟨q, n⟩ := e
    by_cases hq : q = p
    · subst hq
      rw [List.filter_cons_of_pos (by simp [hp]), lookupFs_cons_self, lookupFs_cons_self]
    · cases hu : isUnderPath q dst with
      | true => rw [List.filter_cons_of_neg (by simp [hu]), ih, lookupFs_cons_ne hq]
      | false =>
        rw [List.filter_cons_of_pos (by simp [hu]), lookupFs_cons_ne hq, ih,
          lookupFs_cons_ne hq]

theorem lookupFs_entriesUnder {fs : Fs} {root p : FPath} (hp : isUnderPath p root = true) :
    lookupFs (entriesUnder fs root) p = lookupFs fs p := by
  simp only [entriesUnder]
  induction fs with
  | nil => rfl
  | cons e rest ih =>
    obtain ⟨q, n⟩ := e
    by_cases hq : q = p
    · subst hq
      rw [List.filter_cons_of_pos (by simp [hp]), lookupFs_cons_self, lookupFs_cons_self]
    · cases hu : isUnderPath q root with
      | true =>
        rw [List.filter_cons_of_pos (by simp [hu]), lookupFs_cons_ne hq, ih,
          lookupFs_cons_ne hq]
      | false => rw [List.filter_cons_of_neg (by simp [hu]), ih, lookupFs_cons_ne hq]

theorem mem_entriesUnder {fs : Fs} {root : FPath} {e : FPath × Node} :
    e ∈ entriesUnder fs root ↔ e ∈ fs ∧ isUnderPath e.1 root = true := by
  unfold entriesUnder
  rw [List.mem_filter]

theorem lookupFs_mapReroot {l : Fs} {src dst : FPath}
    (h : ∀ e ∈ l, isUnderPath e.1 src = true) (t : FPath) :
    lookupFs (l.map (rerootEntry src dst)) (dst ++ t) = lookupFs l (src ++ t) := by
  induction l with
  | nil => rfl
  | cons e rest ih =>
    obtain ⟨q, n⟩ := e
    obtain ⟨tq, rfl⟩ := isUnderPath_iff.mp (h _ (List.mem_cons_self _ _))
    have h1 : rerootEntry src dst (src ++ tq, n) = (dst ++ tq, n) := by
      simp [rerootEntry, List.drop_left]
    rw [List.map_cons, h1]
    by_cases ht : tq = t
    · subst ht
      rw [lookupFs_cons_self, lookupFs_cons_self]
    · rw [lookupFs_cons_ne (fun hEq => ht (List.append_cancel_left hEq)),
          lookupFs_cons_ne (fun hEq => ht (List.append_cancel_left hEq))]
      exact ih (fun e he => h e (List.mem_cons_of_mem _ he))

theorem lookupFs_mkdirsList_of_isSome {p : FPath} (l : List FPath) {fs : Fs}
    (h : (lookupFs fs p).isSome = true) :
    lookupFs (mkdirsList fs l) p = lookupFs fs p := by
  induction l generalizing fs with
  | nil => rfl
  | cons a rest ih =>
    rw [mkdirsList]
    by_cases ha : (lookupFs fs a).isSome = true
    · rw [if_pos ha]
      exact ih h
    · rw [if_neg ha]
      have h2 : lookupFs (fs ++ [(a, Node.dir)]) p = lookupFs fs p := by
        rw [lookupFs_append]
        cases hv : lookupFs fs p
        · rw [hv] at h
          simp at h
        · rfl
      rw [ih (by rw [h2]; exact h), h2]

theorem lookupFs_mkdirsList_of_notMem {p : FPath} (l : List FPath) {fs : Fs}
    (hmem : p ∉ l) (h : lookupFs fs p = none) :
    lookupFs (mkdirsList fs l) p = none := by
  induction l generalizing fs with
  | nil => exact h
  | cons a rest ih =>
    have hap : a ≠ p := fun he => hmem (he ▸ List.mem_cons_self a rest)
    rw [mkdirsList]
    by_cases ha : (lookupFs fs a).isSome = true
    · rw [if_pos ha]
      exact ih (fun hm => hmem (List.mem_cons_of_mem _ hm)) h
    · rw [if_neg ha]
      refine ih (fun hm => hmem (List.mem_cons_of_mem _ hm)) ?_
      rw [lookupFs_append, h]
      rw [lookupFs_cons_ne hap, lookupFs_nil]
      rfl

theorem lookupFs_mkdirsList_isSome_of_mem {p : FPath} (l : List FPath) {fs : Fs}
    (hmem : p ∈ l) :
    (lookupFs (mkdirsList fs l) p).isSome = true := by
  induction l generalizing fs with
  | nil => exact absurd hmem (List.not_mem_nil p)
  | cons a rest ih =>
    rw [mkdirsList]
    rcases List.mem_cons.mp hmem with hpa | hrest
    · subst hpa
      by_cases ha : (lookupFs fs p).isSome = true
      · rw [if_pos ha, lookupFs_mkdirsList_of_isSome rest ha]
        exact ha
      · rw [if_neg ha]
        have h2 : lookupFs (fs ++ [(p, Node.dir)]) p = some Node.dir := by
          rw [lookupFs_append]
          cases hv : lookupFs fs p
          · rw [lookupFs_cons_self]
            rfl
          · rw [hv] at ha
            simp at ha
        rw [lookupFs_mkdirsList_of_isSome rest (by rw [h2]; rfl), h2]
        rfl
    · by_cases ha : (lookupFs fs a).isSome = true
      · rw [if_pos ha]
        exact ih hrest
      · rw [if_neg ha]
        exact ih hrest

theorem lookupFs_updateMap_self (fs : Fs) (p : FPath) (g : Node → Node) :
    lookupFs (fs.map (fun e => if e.1 = p then (e.1, g e.2) else e)) p
      = (lookupFs fs p).map g := by
  induction fs with
  | nil => rfl
  | cons e rest ih =>
    obtain ⟨q, n⟩ := e
    by_cases hq : q = p
    · subst hq
      rw [List.map_cons, if_pos rfl, lookupFs_cons_self, lookupFs_cons_self]
      rfl
    · rw [List.map_cons, if_neg hq, lookupFs_cons_ne hq, lookupFs_cons_ne hq]
      exact ih

theorem lookupFs_updateMap_ne (fs : Fs) (p : FPath) (g : Node → Node) {q : FPath}
    (h : q ≠ p) :
    lookupFs (fs.map (fun e => if e.1 = p then (e.1, g e.2) else e)) q
      = lookupFs fs q := by
  induction fs with
  | nil => rfl
  | cons e rest ih =>
    obtain ⟨r, n⟩ := e
    by_cases hr : r = p
    · subst hr
      rw [List.map_cons, if_pos rfl, lookupFs_cons_ne (Ne.symm h),
        lookupFs_cons_ne (Ne.symm h)]
      exact ih
    · rw [List.map_cons, if_neg hr]
      by_cases hrq : r = q
      · subst hrq
        rw [lookupFs_cons_self, lookupFs_cons_self]
      · rw [lookupFs_cons_ne hrq, lookupFs_cons_ne hrq]
        exact ih

theorem lookupFs_appendFile_self_file {fs : Fs} {p : FPath} {c : PyStr} (s : PyStr)
    (h : lookupFs fs p = some (Node.file c)) :
    lookupFs (appendFile fs p s) p = some (Node.file (c ++ s)) := by
  unfold appendFile
  rw [if_pos (by rw [h]; rfl), lookupFs_updateMap_self, h]
  rfl

theorem lookupFs_appendFile_self_absent {fs : Fs} {p : FPath} (s : PyStr)
    (h : lookupFs fs p = none) :
    lookupFs (appendFile fs p s) p = some (Node.file s) := by
  unfold appendFile
  rw [if_neg (by rw [h]; simp), lookupFs_append, h, lookupFs_cons_self]
  rfl

theorem lookupFs_appendFile_ne {fs : Fs} {p q : FPath} (s : PyStr) (h : q ≠ p) :
    lookupFs (appendFile fs p s) q = lookupFs fs q := by
  unfold appendFile
  by_cases hp : (lookupFs fs p).isSome = true
  · rw [if_pos hp, lookupFs_updateMap_ne _ _ _ h]
  · rw [if_neg hp, lookupFs_append, lookupFs_cons_ne (Ne.symm h), lookupFs_nil]
    cases lookupFs fs q <;> rfl

theorem lookupFs_writeLines_self {p : FPath} (l : List PyStr) {fs : Fs} {c : PyStr}
    (h : lookupFs fs p = some (Node.file c)) :
    lookupFs (writeLines fs p l) p
      = some (Node.file (c ++ (l.map (fun n => n ++ [nl])).join)) := by
  induction l generalizing fs c with
  | nil => simpa using h
  | cons x rest ih =>
    unfold writeLines at ih ⊢
    rw [List.foldl_cons]
    rw [ih (lookupFs_appendFile_self_file (x ++ [nl]) h)]
    simp

theorem lookupFs_writeLines_ne {p q : FPath} (l : List PyStr) {fs : Fs} (h : q ≠ p) :
    lookupFs (writeLines fs p l) q = lookupFs fs q := by
  induction l generalizing fs with
  | nil => rfl
  | cons x rest ih =>
    unfold writeLines at ih ⊢
    rw [List.foldl_cons, ih, lookupFs_appendFile_ne _ h]

/-!
### Text lines

`linesOf` splits a file content into its lines the way Python's
`str.splitlines` does for newline-terminated text: a trailing newline does
not produce an extra empty line.
-/

/-- Split into lines; `acc` holds the (reversed) current partial line. -/
def linesAux : PyStr → PyStr → List PyStr
  | acc, [] => if acc = [] then [] else [acc.reverse]
  | acc, c :: cs => if c = nl then acc.reverse :: linesAux [] cs else linesAux (c :: acc) cs

/-- The lines of a text. -/
def linesOf (s : PyStr) : List PyStr := linesAux [] s

theorem linesAux_append_line (n : PyStr) (rest : PyStr) :
    ∀ acc, nl ∉ n →
      linesAux acc (n ++ nl :: rest) = (acc.reverse ++ n) :: linesAux [] rest := by
  induction n with
  | nil =>
    intro acc h
    simp [linesAux]
  | cons c n' ih =>
    intro acc h
    have hc : ¬ c = nl := fun h2 => h (h2 ▸ List.mem_cons_self c n')
    simp only [List.cons_append, linesAux, if_neg hc, List.append_eq]
    rw [ih (c :: acc) (fun hm => h (List.mem_cons_of_mem _ hm))]
    simp

theorem linesOf_join (l : List PyStr) (h : ∀ n ∈ l, nl ∉ n) :
    linesOf ((l.map (fun n => n ++ [nl])).join) = l := by
  induction l with
  | nil => rfl
  | cons x rest ih =>
    simp only [List.map_cons, List.join_cons]
    unfold linesOf
    have h2 : (x ++ [nl]) ++ (rest.map (fun n => n ++ [nl])).join
        = x ++ nl :: (rest.map (fun n => n ++ [nl])).join := by simp
    rw [h2, linesAux_append_line x _ [] (h x (List.mem_cons_self _ _))]
    simp only [List.reverse_nil, List.nil_append]
    rw [show linesAux [] ((rest.map (fun n => n ++ [nl])).join)
        = linesOf ((rest.map (fun n => n ++ [nl])).join) from rfl]
    rw [ih (fun n hn => h n (List.mem_cons_of_mem _ hn))]

theorem length_le_of_mem_ancestorsOf {a q : FPath} (h : a ∈ ancestorsOf q) :
    a.length ≤ q.length := by
  unfold ancestorsOf at h
  rcases List.mem_map.mp h with ⟨i, hi, rfl⟩
  simp [List.length_take]

theorem length_cfg_relInclude (cfg : FPath) :
    (cfg ++ relInclude).length = cfg.length + 3 := by
  simp [relInclude]

theorem update_include_content {fs : Fs} {cfg : FPath} {c0 : PyStr} (names : List PyStr)
    (h : lookupFs fs (cfg ++ relInclude) = some (Node.file c0)
         ∨ (lookupFs fs (cfg ++ relInclude) = none ∧ c0 = [])) :
    lookupFs (update_functions_include fs names cfg) (cfg ++ relInclude)
      = some (Node.file (c0 ++
          ((List.insertionSort pyLeP names).map (fun n => n ++ [nl])).join)) := by
  simp only [update_functions_include, mkdirs]
  have hlen : ∀ a ∈ ancestorsOf (cfg ++ relInclude).dropLast, a ≠ cfg ++ relInclude := by
    intro a ha heq
    have h1 := length_le_of_mem_ancestorsOf ha
    rw [List.length_dropLast, heq, length_cfg_relInclude] at h1
    omega
  have hmk : lookupFs (mkdirsList fs (ancestorsOf (cfg ++ relInclude).dropLast))
      (cfg ++ relInclude) = lookupFs fs (cfg ++ relInclude) := by
    rcases h with hsome | ⟨hnone, _⟩
    · exact lookupFs_mkdirsList_of_isSome _ (by rw [hsome]; rfl)
    · rw [lookupFs_mkdirsList_of_notMem _ (fun hm => hlen _ hm rfl) hnone, hnone]
  have hopen : lookupFs
      (appendFile (mkdirsList fs (ancestorsOf (cfg ++ relInclude).dropLast))
        (cfg ++ relInclude) []) (cfg ++ relInclude) = some (Node.file c0) := by
    rcases h with hsome | ⟨hnone, hc0⟩
    · have h3 := lookupFs_appendFile_self_file [] (hmk.trans hsome)
      simpa using h3
    · subst hc0
      exact lookupFs_appendFile_self_absent [] (hmk.trans hnone)
  exact lookupFs_writeLines_self _ hopen

theorem update_include_dirs {fs : Fs} {cfg : FPath} (names : List PyStr)
    {a : FPath} (ha : a ∈ ancestorsOf (cfg ++ relInclude).dropLast) :
    (lookupFs (update_functions_include fs names cfg) a).isSome = true := by
  simp only [update_functions_include, mkdirs]
  have hne : a ≠ cfg ++ relInclude := by
    intro heq
    have h1 := length_le_of_mem_ancestorsOf ha
    rw [List.length_dropLast, heq, length_cfg_relInclude] at h1
    omega
  rw [lookupFs_writeLines_ne _ hne, lookupFs_appendFile_ne _ hne]
  exact lookupFs_mkdirsList_isSome_of_mem _ ha

/-! ### Analysis of `create_base_result_config` -/

theorem entriesUnder_all_under (fs : Fs) (root : FPath) :
    ∀ e ∈ entriesUnder fs root, isUnderPath e.1 root = true :=
  fun e he => (mem_entriesUnder.mp he).2

theorem entriesUnder_rmtree {fs : Fs} {src dst : FPath}
    (h1 : isUnderPath src dst = false) (h2 : isUnderPath dst src = false) :
    entriesUnder (rmtree fs dst) src = entriesUnder fs src := by
  unfold entriesUnder rmtree
  rw [List.filter_filter]
  refine List.filter_congr (fun e he => ?_)
  cases hu : isUnderPath e.1 src with
  | false => simp [hu]
  | true => simp [hu, not_under_trans hu h1 h2]

theorem create_base_eq {fs : Fs} {src dst : FPath}
    (hSrc : (lookupFs fs src).isSome = true)
    (h1 : isUnderPath src dst = false) (h2 : isUnderPath dst src = false) :
    create_base_result_config fs src dst
      = Except.ok ((if (lookupFs fs dst).isSome = true then rmtree fs dst else fs)
          ++ (entriesUnder fs src).map (rerootEntry src dst)) := by
  obtain ⟨v, hv⟩ := Option.isSome_iff_exists.mp hSrc
  unfold create_base_result_config copytree
  by_cases hd : (lookupFs fs dst).isSome = true
  · rw [if_pos hd,
      lookupFs_rmtree_not_under h1, hv,
      lookupFs_rmtree_under (isUnderPath_refl dst),
      entriesUnder_rmtree h1 h2]
    simp
  · rw [if_neg hd, hv, Option.not_isSome_iff_eq_none.mp hd]
    simp

theorem fsA_not_under {fs : Fs} {dst : FPath}
    (hWf : lookupFs fs dst = none → entriesUnder fs dst = []) :
    ∀ e ∈ (if (lookupFs fs dst).isSome = true then rmtree fs dst else fs),
      isUnderPath e.1 dst = false := by
  intro e he
  by_cases hd : (lookupFs fs dst).isSome = true
  · rw [if_pos hd] at he
    have h3 := (List.mem_filter.mp he).2
    simpa using h3
  · rw [if_neg hd] at he
    have hnone : lookupFs fs dst = none := by
      cases hv : lookupFs fs dst
      · rfl
      · rw [hv] at hd
        simp at hd
    have h0 := hWf hnone
    cases hu : isUnderPath e.1 dst with
    | false => rfl
    | true =>
      have h4 : e ∈ entriesUnder fs dst := mem_entriesUnder.mpr ⟨he, hu⟩
      rw [h0] at h4
      exact absurd h4 (List.not_mem_nil e)

theorem lookupFs_copyResult_under {fsA tpl : Fs} {src dst : FPath}
    (hA : ∀ e ∈ fsA, isUnderPath e.1 dst = false)
    (htpl : ∀ e ∈ tpl, isUnderPath e.1 src = true) (t : FPath) :
    lookupFs (fsA ++ tpl.map (rerootEntry src dst)) (dst ++ t)
      = lookupFs tpl (src ++ t) := by
  rw [lookupFs_append,
    lookupFs_none_of_all_not_under hA (isUnderPath_appendRight dst t),
    lookupFs_mapReroot htpl t]
  rfl

theorem lookupFs_copyResult_not_under {fsA tpl : Fs} {src dst : FPath}
    (htpl : ∀ e ∈ tpl, isUnderPath e.1 src = true) {p : FPath}
    (hp : isUnderPath p dst = false) :
    lookupFs (fsA ++ tpl.map (rerootEntry src dst)) p = lookupFs fsA p := by
  rw [lookupFs_append]
  have h2 : lookupFs (tpl.map (rerootEntry src dst)) p = none := by
    refine lookupFs_eq_none_of_ne (fun e he heq => ?_)
    rcases List.mem_map.mp he with ⟨e0, _, rfl⟩
    have h3 : isUnderPath (rerootEntry src dst e0).1 dst = true :=
      isUnderPath_appendRight dst (e0.1.drop src.length)
    rw [heq, hp] at h3
    exact absurd h3 (by simp)
  rw [h2]
  cases lookupFs fsA p <;> rfl

theorem rmtree_copyResult {fsA tpl : Fs} {src dst : FPath}
    (hA : ∀ e ∈ fsA, isUnderPath e.1 dst = false) :
    rmtree (fsA ++ tpl.map (rerootEntry src dst)) dst = fsA := by
  unfold rmtree
  rw [List.filter_append,
    List.filter_eq_self.mpr (fun e he => by simp [hA e he]),
    List.filter_eq_nil.mpr (fun e he => ?_), List.append_nil]
  rcases List.mem_map.mp he with ⟨e0, _, rfl⟩
  have h3 : isUnderPath (rerootEntry src dst e0).1 dst = true :=
    isUnderPath_appendRight dst (e0.1.drop src.length)
  simp [h3]

theorem entriesUnder_copyResult {fsA tpl : Fs} {src dst : FPath}
    (hA : ∀ e ∈ fsA, isUnderPath e.1 dst = false) :
    entriesUnder (fsA ++ tpl.map (rerootEntry src dst)) dst
      = tpl.map (rerootEntry src dst) := by
  unfold entriesUnder
  rw [List.filter_append,
    List.filter_eq_nil.mpr (fun e he => by simp [hA e he]),
    List.filter_eq_self.mpr (fun e he => ?_), List.nil_append]
  rcases List.mem_map.mp he with ⟨e0, _, rfl⟩
  exact isUnderPath_appendRight dst (e0.1.drop src.length)

/-! ### Concrete inputs used by scenario claims and witnesses -/

/-- Wrap a name in single quotes, as it appears inside a qualifier. -/
def quoted (s : String) : PyStr := sqc :: pstr s ++ [sqc]

/-- The three-record report of the include-file scenario. -/
def demoReport : List Record :=
  [[(pstr "qualifier", pstr "Bug originated in function: " ++ quoted "foo")],
   [(pstr "qualifier", pstr "originated in function: " ++ quoted "bar")],
   [(pstr "qualifier", pstr "no match here")]]

/-- A JSON decoder accepting exactly the text `[]` (the empty report);
any other content is malformed. -/
def demoLoad : PyStr → Option (List Record) :=
  fun c => if c = pstr "[]" then some [] else none

/-- An input state with one malformed and one well-formed report file. -/
def demoFs : Fs :=
  [([pstr "atomer"], Node.dir),
   ([pstr "atomer", pstr "bad.json"], Node.file (pstr "oops")),
   ([pstr "atomer", pstr "good.json"], Node.file (pstr "[]")),
   ([pstr "base"], Node.dir)]

theorem mem_listdirFs {fs : Fs} {p : FPath} {f : PyStr} :
    f ∈ listdirFs fs p ↔ ∃ nd, (p ++ [f], nd) ∈ fs := by
  unfold listdirFs
  rw [List.mem_filterMap]
  constructor
  · rintro ⟨e, he, hval⟩
    obtain ⟨q, nd⟩ := e
    by_cases hcond : q.length = p.length + 1 ∧ q.take p.length = p
    · rw [if_pos hcond] at hval
      obtain ⟨hlen, htake⟩ := hcond
      have hdl : (q.drop p.length).length = 1 := by
        rw [List.length_drop, hlen]
        omega
      obtain ⟨x, hx⟩ := List.length_eq_one.mp hdl
      have hsplit : q = p ++ [x] := by
        conv_lhs => rw [← List.take_append_drop p.length q]
        rw [htake, hx]
      rw [hsplit, List.getLast?_concat] at hval
      cases hval
      rw [hsplit] at he
      exact ⟨nd, he⟩
    · rw [if_neg hcond] at hval
      exact absurd hval (by simp)
  · rintro ⟨nd, hmem⟩
    refine ⟨(p ++ [f], nd), hmem, ?_⟩
    rw [if_pos ⟨by simp, List.take_left p [f]⟩]
    exact List.getLast?_concat _

/-! ### The claims -/

/-- C2: after successful argument parsing, `main` looks up the attribute
`Run` on the `ConfigCreator` instance; the class defines only `run`
(lookup is case sensitive), so an `AttributeError` is raised before any
report discovery or config-directory creation: the filesystem is returned
unchanged, whatever the arguments and input state. -/
theorem spec_C2 (fs : Fs) (atomerDir baseConfigDir resultConfigDir : FPath)
    (jsonLoad : PyStr → Option (List Record)) :
    mainProgram fs atomerDir baseConfigDir resultConfigDir jsonLoad true
      = (fs, some Err.attributeError) := rfl

/-- C3: for every well-formed decoded report, the extracted set consists
exactly of the names captured (leftmost occurrence, per record) by the
pattern `originated in function: '([^']+)'` in the records' `qualifier`
fields (an absent field behaving as the empty string, which never matches),
with duplicates collapsed. -/
theorem spec_C3 (report : List Record) :
    (extract_functions_to_analyze report).Nodup ∧
    ∀ n, n ∈ extract_functions_to_analyze report ↔
      ∃ e ∈ report, leftmostCapture (qualifierOf e) n := by
  refine ⟨nodup_extract report, fun n => ?_⟩
  rw [mem_extract]
  constructor
  · rintro ⟨e, he, hs⟩
    exact ⟨e, he, reSearch_eq_some.mp hs⟩
  · rintro ⟨e, he, hs⟩
    exact ⟨e, he, reSearch_eq_some.mpr hs⟩

theorem spec_C3_witness :
    (extract_functions_to_analyze demoReport).Nodup
    ∧ (pstr "foo" ∈ extract_functions_to_analyze demoReport
        ↔ ∃ e ∈ demoReport, leftmostCapture (qualifierOf e) (pstr "foo")) :=
  ⟨(spec_C3 demoReport).1, (spec_C3 demoReport).2 (pstr "foo")⟩

/-- C10: the search contributes at most one name per record, namely the
capture of the leftmost pattern occurrence in the qualifier; concretely, a
qualifier with two differently-named occurrences contributes only the
first name. -/
theorem spec_C10 :
    (∀ s n, reSearch s = some n ↔ leftmostCapture s n) ∧
    extract_functions_to_analyze
      [[(pstr "qualifier",
         pstr "x originated in function: " ++ quoted "a"
           ++ pstr " and originated in function: " ++ quoted "b")]]
      = [pstr "a"] :=
  ⟨fun _ _ => reSearch_eq_some, by decide⟩

/-- C5: on the three-record scenario report the extraction yields exactly
the set containing `foo` and `bar`, and writing that set into a fresh
configuration directory produces an include file whose content is exactly
the line `bar` followed by the line `foo`, each newline-terminated. -/
theorem spec_C5 :
    extract_functions_to_analyze demoReport = [pstr "foo", pstr "bar"]
    ∧ lookupFs
        (update_functions_include [([pstr "cfg"], Node.dir)]
          (extract_functions_to_analyze demoReport) [pstr "cfg"])
        ([pstr "cfg"] ++ relInclude)
      = some (Node.file (pstr "bar\nfoo\n")) := by
  constructor
  · decide
  · decide

/-- C8: discovery over an existing directory all of whose entries lack the
`.json` suffix returns the empty list. -/
theorem spec_C8 (fs : Fs) (atomerDir : FPath)
    (hdir : isDirFs fs atomerDir = true)
    (h : ∀ f ∈ listdirFs fs atomerDir, strEndsWith f (pstr ".json") = false) :
    get_atomer_output_files fs atomerDir = Except.ok [] := by
  unfold get_atomer_output_files
  rw [if_pos hdir, List.filter_eq_nil.mpr (fun f hf => by simp [h f hf])]
  rfl

theorem spec_C8_witness :
    get_atomer_output_files
      [([pstr "d"], Node.dir), ([pstr "d", pstr "a.txt"], Node.file [])]
      [pstr "d"] = Except.ok [] :=
  spec_C8 _ _ (by decide) (by decide)

/-- C7: when the input path is missing or not a directory, the run stops at
discovery with the configuration error and the filesystem untouched — no
report processed, no config directory created; when it is a directory,
discovery returns exactly the full paths of its immediate entries whose
names end in `.json`. -/
theorem spec_C7 (fs : Fs) (atomerDir baseConfigDir resultConfigDir : FPath)
    (jsonLoad : PyStr → Option (List Record)) :
    (isDirFs fs atomerDir = false →
      run fs atomerDir baseConfigDir resultConfigDir jsonLoad
        = (fs, some Err.valueError))
    ∧ (isDirFs fs atomerDir = true →
      ∃ files, get_atomer_output_files fs atomerDir = Except.ok files
        ∧ ∀ p, p ∈ files ↔ ∃ f nd, (atomerDir ++ [f], nd) ∈ fs
            ∧ strEndsWith f (pstr ".json") = true ∧ p = atomerDir ++ [f]) := by
  constructor
  · intro hdir
    unfold run get_atomer_output_files
    rw [hdir]
    rfl
  · intro hdir
    unfold get_atomer_output_files
    rw [if_pos hdir]
    refine ⟨_, rfl, fun p => ?_⟩
    rw [List.mem_map]
    constructor
    · rintro ⟨f, hf, rfl⟩
      have hmem := List.mem_filter.mp hf
      obtain ⟨nd, hnd⟩ := mem_listdirFs.mp hmem.1
      exact ⟨f, nd, hnd, hmem.2, rfl⟩
    · rintro ⟨f, nd, hnd, hsuf, rfl⟩
      exact ⟨f, List.mem_filter.mpr ⟨mem_listdirFs.mpr ⟨nd, hnd⟩, hsuf⟩, rfl⟩

theorem spec_C7_witness :
    run [] [pstr "missing"] [pstr "base"] [pstr "result"] (fun _ => none)
      = ([], some Err.valueError) :=
  (spec_C7 [] [pstr "missing"] [pstr "base"] [pstr "result"] (fun _ => none)).1
    (by decide)

/-- C4: writing a duplicate-free set of (nonempty, newline-free) extracted
names to a fresh destination produces an include file whose lines are
exactly those names in ascending code-point order — one name per
newline-terminated line, without duplicates or blank lines — and creates
every missing parent directory of `filters/functions/include`. -/
theorem spec_C4 (fs : Fs) (pathToConfig : FPath) (names : List PyStr)
    (hFresh : lookupFs fs (pathToConfig ++ relInclude) = none)
    (hNodup : names.Nodup)
    (hNE : ∀ n ∈ names, n ≠ [])
    (hNL : ∀ n ∈ names, nl ∉ n) :
    ∃ content,
      lookupFs (update_functions_include fs names pathToConfig)
          (pathToConfig ++ relInclude) = some (Node.file content)
      ∧ linesOf content = List.insertionSort pyLeP names
      ∧ List.Sorted pyLeP (linesOf content)
      ∧ (linesOf content).Nodup
      ∧ (linesOf content).Perm names
      ∧ [] ∉ linesOf content
      ∧ ∀ a ∈ ancestorsOf (pathToConfig ++ relInclude).dropLast,
          (lookupFs (update_functions_include fs names pathToConfig) a).isSome
            = true := by
  have hcontent := @update_include_content fs pathToConfig []
    names (Or.inr ⟨hFresh, rfl⟩)
  have hperm : (List.insertionSort pyLeP names).Perm names :=
    List.perm_insertionSort pyLeP names
  have hNL2 : ∀ n ∈ List.insertionSort pyLeP names, nl ∉ n :=
    fun n hn => hNL n (hperm.mem_iff.mp hn)
  have hlines : linesOf
      ((List.insertionSort pyLeP names).map (fun n => n ++ [nl])).join
        = List.insertionSort pyLeP names :=
    linesOf_join _ hNL2
  refine ⟨_, by simpa using hcontent, hlines, ?_, ?_, ?_, ?_,
    fun a ha => update_include_dirs names ha⟩
  · rw [hlines]
    exact List.sorted_insertionSort pyLeP names
  · rw [hlines]
    exact hperm.nodup_iff.mpr hNodup
  · rw [hlines]
    exact hperm
  · rw [hlines]
    intro hmem
    exact hNE [] (hperm.mem_iff.mp hmem) rfl

theorem spec_C4_witness :
    ∃ content,
      lookupFs (update_functions_include [] [pstr "b", pstr "a"] [pstr "cfg"])
          ([pstr "cfg"] ++ relInclude) = some (Node.file content)
      ∧ linesOf content = List.insertionSort pyLeP [pstr "b", pstr "a"]
      ∧ List.Sorted pyLeP (linesOf content)
      ∧ (linesOf content).Nodup
      ∧ (linesOf content).Perm [pstr "b", pstr "a"]
      ∧ [] ∉ linesOf content
      ∧ ∀ a ∈ ancestorsOf ([pstr "cfg"] ++ relInclude).dropLast,
          (lookupFs (update_functions_include [] [pstr "b", pstr "a"] [pstr "cfg"]) a).isSome
            = true :=
  spec_C4 [] [pstr "cfg"] [pstr "b", pstr "a"]
    (by decide) (by decide) (by decide) (by decide)

/-- C6: materialization deletes an existing destination before copying, so
it always succeeds, re-materializing the same destination is idempotent,
and the resulting subtree at the destination is exactly a fresh re-rooted
copy of the template — no leftover entries from before. -/
theorem spec_C6 (fs : Fs) (src dst : FPath)
    (hSrc : (lookupFs fs src).isSome = true)
    (h1 : isUnderPath src dst = false)
    (h2 : isUnderPath dst src = false)
    (hWf : lookupFs fs dst = none → entriesUnder fs dst = []) :
    ∃ fs1, create_base_result_config fs src dst = Except.ok fs1
      ∧ create_base_result_config fs1 src dst = Except.ok fs1
      ∧ entriesUnder fs1 dst = (entriesUnder fs src).map (rerootEntry src dst) := by
  obtain ⟨v, hv⟩ := Option.isSome_iff_exists.mp hSrc
  have hA := @fsA_not_under fs dst hWf
  have htpl := entriesUnder_all_under fs src
  have heq := create_base_eq hSrc h1 h2
  refine ⟨_, heq, ?_, entriesUnder_copyResult hA⟩
  have hAsrc : lookupFs
      (if (lookupFs fs dst).isSome = true then rmtree fs dst else fs) src
        = lookupFs fs src := by
    by_cases hd : (lookupFs fs dst).isSome = true
    · rw [if_pos hd]
      exact lookupFs_rmtree_not_under h1
    · rw [if_neg hd]
  have hAdst : lookupFs
      (if (lookupFs fs dst).isSome = true then rmtree fs dst else fs) dst
        = none := by
    by_cases hd : (lookupFs fs dst).isSome = true
    · rw [if_pos hd]
      exact lookupFs_rmtree_under (isUnderPath_refl dst)
    · rw [if_neg hd]
      exact Option.not_isSome_iff_eq_none.mp hd
  have hAunder : entriesUnder
      (if (lookupFs fs dst).isSome = true then rmtree fs dst else fs) src
        = entriesUnder fs src := by
    by_cases hd : (lookupFs fs dst).isSome = true
    · rw [if_pos hd]
      exact entriesUnder_rmtree h1 h2
    · rw [if_neg hd]
  have hdst1 : lookupFs
      ((if (lookupFs fs dst).isSome = true then rmtree fs dst else fs)
        ++ (entriesUnder fs src).map (rerootEntry src dst)) dst = some v := by
    have h3 := lookupFs_copyResult_under hA htpl []
    rw [List.append_nil, List.append_nil] at h3
    rw [h3, lookupFs_entriesUnder (isUnderPath_refl src), hv]
  unfold create_base_result_config
  rw [if_pos (by rw [hdst1]; rfl), rmtree_copyResult hA]
  unfold copytree
  rw [hAsrc, hv, hAdst, hAunder]
  simp

theorem spec_C6_witness :
    ∃ fs1,
      create_base_result_config
        [([pstr "base"], Node.dir), ([pstr "base", pstr "f"], Node.file (pstr "x"))]
        [pstr "base"] [pstr "out"] = Except.ok fs1
      ∧ create_base_result_config fs1 [pstr "base"] [pstr "out"] = Except.ok fs1
      ∧ entriesUnder fs1 [pstr "out"]
        = (entriesUnder
            [([pstr "base"], Node.dir), ([pstr "base", pstr "f"], Node.file (pstr "x"))]
            [pstr "base"]).map (rerootEntry [pstr "base"] [pstr "out"]) :=
  spec_C6 _ _ _ (by decide) (by decide) (by decide) (by decide)

/-- C9: for a report whose JSON decodes successfully, the per-report loop
body materializes the destination (delete-then-copy) strictly before the
include file is appended to, so the resulting include file content is the
template's include content (empty when the template has none) followed by
the freshly extracted sorted lines — independent of anything previously
stored at the destination, in particular of lines from a previous run. -/
theorem spec_C9 (fs : Fs) (baseConfigDir resultConfigDir : FPath)
    (jsonLoad : PyStr → Option (List Record)) (filepath : FPath)
    (raw : PyStr) (report : List Record) (c0 : PyStr) (dst : FPath)
    (hdst : dst = resultConfigDir
        ++ [dropLastExt (filepath.getLastD []) ++ pstr "_conf"])
    (hSrc : (lookupFs fs baseConfigDir).isSome = true)
    (h1 : isUnderPath baseConfigDir dst = false)
    (h2 : isUnderPath dst baseConfigDir = false)
    (hWf : lookupFs fs dst = none → entriesUnder fs dst = [])
    (hFile : lookupFs fs filepath = some (Node.file raw))
    (hFileLoc : isUnderPath filepath dst = false)
    (hLoad : jsonLoad raw = some report)
    (hTpl : lookupFs fs (baseConfigDir ++ relInclude) = some (Node.file c0)
        ∨ (lookupFs fs (baseConfigDir ++ relInclude) = none ∧ c0 = [])) :
    ∃ fsOut,
      processReportFile fs baseConfigDir resultConfigDir jsonLoad filepath
        = (fsOut, none)
      ∧ lookupFs fsOut (dst ++ relInclude)
        = some (Node.file (c0 ++
            ((List.insertionSort pyLeP
              (extract_functions_to_analyze report)).map
                (fun n => n ++ [nl])).join)) := by
  have hA := @fsA_not_under fs dst hWf
  have htpl := entriesUnder_all_under fs baseConfigDir
  have hcreate := create_base_eq hSrc h1 h2
  have hAfile : lookupFs
      (if (lookupFs fs dst).isSome = true then rmtree fs dst else fs) filepath
        = lookupFs fs filepath := by
    by_cases hd : (lookupFs fs dst).isSome = true
    · rw [if_pos hd]
      exact lookupFs_rmtree_not_under hFileLoc
    · rw [if_neg hd]
  have hfile1 : lookupFs
      ((if (lookupFs fs dst).isSome = true then rmtree fs dst else fs)
        ++ (entriesUnder fs baseConfigDir).map (rerootEntry baseConfigDir dst))
      filepath = some (Node.file raw) := by
    rw [lookupFs_copyResult_not_under htpl hFileLoc, hAfile, hFile]
  have hinc1 : lookupFs
      ((if (lookupFs fs dst).isSome = true then rmtree fs dst else fs)
        ++ (entriesUnder fs baseConfigDir).map (rerootEntry baseConfigDir dst))
      (dst ++ relInclude) = lookupFs fs (baseConfigDir ++ relInclude) := by
    rw [lookupFs_copyResult_under hA htpl relInclude,
      lookupFs_entriesUnder (isUnderPath_appendRight baseConfigDir relInclude)]
  refine ⟨update_functions_include
      ((if (lookupFs fs dst).isSome = true then rmtree fs dst else fs)
        ++ (entriesUnder fs baseConfigDir).map (rerootEntry baseConfigDir dst))
      (extract_functions_to_analyze report) dst, ?_, ?_⟩
  · simp only [processReportFile, ← hdst, hcreate, read_json_from_file, hfile1, hLoad]
  · refine update_include_content _ ?_
    rcases hTpl with hsome | ⟨hnone, hc0⟩
    · exact Or.inl (by rw [hinc1]; exact hsome)
    · exact Or.inr ⟨by rw [hinc1]; exact hnone, hc0⟩

theorem spec_C9_witness :
    ∃ fsOut,
      processReportFile
        [([pstr "atomer"], Node.dir),
         ([pstr "atomer", pstr "r.json"], Node.file (pstr "[]")),
         ([pstr "base"], Node.dir)]
        [pstr "base"] [pstr "result"] demoLoad [pstr "atomer", pstr "r.json"]
        = (fsOut, none)
      ∧ lookupFs fsOut ([pstr "result", pstr "r_conf"] ++ relInclude)
        = some (Node.file ([] ++
            ((List.insertionSort pyLeP
              (extract_functions_to_analyze [])).map
                (fun n => n ++ [nl])).join)) :=
  spec_C9
    [([pstr "atomer"], Node.dir),
     ([pstr "atomer", pstr "r.json"], Node.file (pstr "[]")),
     ([pstr "base"], Node.dir)]
    [pstr "base"] [pstr "result"] demoLoad [pstr "atomer", pstr "r.json"]
    (pstr "[]") [] [] [pstr "result", pstr "r_conf"]
    (by decide) (by decide) (by decide) (by decide) (by decide)
    (by decide) (by decide) (by decide) (by decide)

/-- C1 is refuted by the code: on a malformed report file,
`read_json_from_file` logs and returns `None`, but `create_confs` then
passes `None` to `extract_functions_to_analyze`, whose `for` loop raises
`TypeError`; the run aborts — the next report file (`good.json`) is never
processed and no include file is written — instead of continuing with zero
extracted functions.  This theorem evaluates the run at such an input. -/
theorem spec_C1_bug :
    run demoFs [pstr "atomer"] [pstr "base"] [pstr "result"] demoLoad
      = (demoFs ++ [([pstr "result", pstr "bad_conf"], Node.dir)],
         some Err.typeError)
    ∧ lookupFs
        (run demoFs [pstr "atomer"] [pstr "base"] [pstr "result"] demoLoad).1
        ([pstr "result", pstr "good_conf"]) = none
    ∧ lookupFs
        (run demoFs [pstr "atomer"] [pstr "base"] [pstr "result"] demoLoad).1
        ([pstr "result", pstr "bad_conf"] ++ relInclude) = none := by
  refine ⟨by decide, by decide, by decide⟩
